import Mathlib

/-!
Shallow embedding of the cvector-cmap repository: src/cvector.c and
src/cmap.c, together with proofs of the behavioural properties of its
specification.

Conventions of the embedding:
* Machine bytes are modelled as natural numbers; a stored element or value is
  the list of bytes read or written by memcpy, and a C string key is the list
  of its (nonzero) bytes before the terminating NUL byte.
* Addresses handed out by the containers are modelled at slot granularity:
  for the vector, the address data + i*elemsz is the slot index i; for the
  map, a key address identifies the entry holding that key (entries never
  share a key in any reachable table, see the invariant theorems below).
* unsigned long / size_t arithmetic is Nat with an explicit % 2^64 where the
  source can wrap (the hash accumulator, and the size_t subtraction inside
  the assert of cvec_nth).
* Fallible lookups return Option; a NULL pointer result is none.
* Cleanup callbacks are observed by returning the list of values the
  container passed to the callback, in call order; whether a callback was
  configured at create time is the Bool field clean.
-/

namespace CvectorCmap

/-- Modulus of unsigned long / size_t arithmetic on the target platform. -/
def UINT64 : Nat := 2 ^ 64

/-- Bytes of one element, value, or key, as read or written by memcpy/strcpy. -/
abbrev Bytes := List Nat

/-! ### cvector.c -/

/-- The struct CVectorImplementation of cvector.c: data is the heap buffer at
slot granularity (slot i holds the elemsz bytes at offset i*elemsz), size the
live element count, capacity the allocated slot count, clean whether a
CleanupElemFn was supplied. -/
structure CVector where
  elemsz : Nat
  size : Nat
  capacity : Nat
  data : List Bytes
  clean : Bool
deriving DecidableEq

/-- DEFAULT_CAPACITY of cvector.c. -/
def cvecDefaultCapacity : Nat := 16

/-- get_nth of cvector.c: address of slot n, read as its byte content. -/
def get_nth (cv : CVector) (n : Nat) : Bytes := cv.data.getD n []

/-- cvec_create of cvector.c: zero capacity hint selects the default, the
buffer is calloc-zeroed. The assert on elemsz being nonzero is a caller
precondition and does not influence the produced state. -/
def cvec_create (elemsz capacity_hint : Nat) (fn : Bool) : CVector :=
  let cap := if capacity_hint = 0 then cvecDefaultCapacity else capacity_hint
  { elemsz := elemsz, size := 0, capacity := cap,
    data := List.replicate cap (List.replicate elemsz 0), clean := fn }

/-- cvec_dispose of cvector.c, observed through the cleanup callback: when a
callback is configured it is called on get_nth cv i for i = 0, 1, ...,
size - 1 in this order; the returned list records those calls. -/
def cvec_dispose (cv : CVector) : List Bytes :=
  if cv.clean then (List.range cv.size).map (fun i => get_nth cv i) else []

/-- cvec_count of cvector.c. -/
def cvec_count (cv : CVector) : Nat := cv.size

/-- cvec_nth of cvector.c: the returned address, read as slot content. Its
assert is modelled separately by cvec_nth_assert. -/
def cvec_nth (cv : CVector) (index : Nat) : Bytes := get_nth cv index

/-- The assert of cvec_nth with the C conversions made explicit: index is an
int, cv.size is a size_t, so index <= cv.size - 1 is evaluated after
converting both sides to size_t; the subtraction cv.size - 1 wraps modulo
2^64 when size is 0. The second conjunct is only reached for index >= 0. -/
def cvec_nth_assert (cv : CVector) (index : Int) : Bool :=
  decide (0 ≤ index) &&
    decide (index.toNat % UINT64 ≤ (cv.size + UINT64 - 1) % UINT64)

/-- cvec_expand of cvector.c: the capacity doubles and realloc preserves the
old bytes while adding capacity further uninitialized slots; the fresh slots
are modelled as zeroed and are never read below size. -/
def cvec_expand (cv : CVector) : CVector :=
  { cv with capacity := cv.capacity * 2,
            data := cv.data ++
              List.replicate cv.capacity (List.replicate cv.elemsz 0) }

/-- The memmove of cvec_insert at slot granularity: the size - index slots
starting at slot index are copied one slot to the right, i.e. the bytes at
offset (index+1)*elemsz .. receive the bytes from offset index*elemsz. -/
def shiftRight (l : List Bytes) (index size : Nat) : List Bytes :=
  l.take (index + 1) ++ (l.drop index).take (size - index) ++
    l.drop (index + 1 + (size - index))

/-- The unconditional tail of cvec_insert: memmove the slots from index
onward one slot to the right, memcpy the new element into slot index, and
increment size. -/
def insertCore (cv1 : CVector) (addr : Bytes) (index : Nat) : CVector :=
  { cv1 with data := (shiftRight cv1.data index cv1.size).set index addr,
             size := cv1.size + 1 }

/-- cvec_insert of cvector.c: expand when full, then shift, write and count
up via insertCore. The assert index >= 0 && index <= cv.size is a caller
precondition carried as a hypothesis by the theorems below. -/
def cvec_insert (cv : CVector) (addr : Bytes) (index : Nat) : CVector :=
  insertCore (if cv.size = cv.capacity then cvec_expand cv else cv) addr index

/-- cvec_append of cvector.c: insert at cvec_count. -/
def cvec_append (cv : CVector) (addr : Bytes) : CVector :=
  cvec_insert cv addr (cvec_count cv)

/-- The binary search performed by the bsearch call of cvec_search, as
implemented by the C library: repeatedly probe the midpoint of the half-open
window [l, u), narrowing with the three-way comparator until a zero
comparison or an empty window. f i is the comparison of the key against
element i of the searched subarray. The fuel argument only bounds the
recursion; the initial call passes the window width, which always suffices
because the width strictly decreases. -/
def bsearchLoop (f : Nat → Int) : Nat → Nat → Nat → Option Nat
  | _, _, 0 => none
  | l, u, fuel + 1 =>
    if l < u then
      if f ((l + u) / 2) < 0 then bsearchLoop f l ((l + u) / 2) fuel
      else if 0 < f ((l + u) / 2) then bsearchLoop f ((l + u) / 2 + 1) u fuel
      else some ((l + u) / 2)
    else none

/-- The linear scan performed by the lfind call of cvec_search, as
implemented by the C library: probe elements i, i+1, ... while rem elements
remain, returning the first index whose comparison is zero. -/
def lfindLoop (f : Nat → Int) : Nat → Nat → Option Nat
  | _, 0 => none
  | i, rem + 1 => if f i = 0 then some i else lfindLoop f (i + 1) rem

/-- cvec_search of cvector.c: num = count - start elements are searched
starting at slot start; the returned index is recovered from the hit address
by (ptr - data) / elemsz, i.e. start plus the index within the subarray, and
a miss is -1. Its assert is modelled by cvec_search_assert. -/
def cvec_search (cv : CVector) (key : Bytes) (cmp : Bytes → Bytes → Int)
    (start : Nat) (sorted : Bool) : Int :=
  let num := cv.size - start
  if sorted then
    match bsearchLoop (fun i => cmp key (get_nth cv (start + i))) 0 num num with
    | none => -1
    | some i => ((start + i : Nat) : Int)
  else
    match lfindLoop (fun i => cmp key (get_nth cv (start + i))) 0 num with
    | none => -1
    | some i => ((start + i : Nat) : Int)

/-- The assert of cvec_search: start is an int compared against the size_t
cv.size, so the second conjunct is an unsigned comparison of the converted
start; it is only reached for start >= 0. -/
def cvec_search_assert (cv : CVector) (start : Int) : Bool :=
  decide (0 ≤ start) && decide (start.toNat % UINT64 ≤ cv.size)

/-- cvec_first of cvector.c: the address of slot 0, or NULL when empty,
at slot granularity. -/
def cvec_first (cv : CVector) : Option Nat :=
  if cv.size = 0 then none else some 0

/-- cvec_next of cvector.c: NULL once prev is the address of the last live
slot, i.e. data + elemsz*(count - 1), otherwise prev + elemsz. At slot
granularity the guard prev = data + elemsz*(count-1) is prev + 1 = size;
for an empty vector the int expression count - 1 is -1 and converts to a
huge size_t offset, so the guard is never taken, matching prev + 1 = 0
being false. -/
def cvec_next (cv : CVector) (prev : Nat) : Option Nat :=
  if prev + 1 = cv.size then none else some (prev + 1)

/-- A full client traversal of the vector: read the slot behind the current
address, then advance with cvec_next, for at most fuel steps. -/
def cvecIterFrom (cv : CVector) : Nat → Option Nat → List Bytes
  | 0, _ => []
  | _ + 1, none => []
  | fuel + 1, some i => cvec_nth cv i :: cvecIterFrom cv fuel (cvec_next cv i)

/-- A full client traversal started at cvec_first. -/
def cvecIter (cv : CVector) (fuel : Nat) : List Bytes :=
  cvecIterFrom cv fuel (cvec_first cv)

/-- The live elements of the vector: the contents of slots 0 .. size-1. -/
def liveView (cv : CVector) : List Bytes := cv.data.take cv.size

/-- Structural well-formedness of a vector state: the buffer has exactly
capacity slots, the live region fits, and the capacity is positive (true
from creation on, since a zero hint selects the nonzero default). -/
def CVectorWF (cv : CVector) : Prop :=
  cv.data.length = cv.capacity ∧ cv.size ≤ cv.capacity ∧ 0 < cv.capacity

/-- One mutating call of the vector API used by the sequence claims. -/
inductive VOp where
  | append (v : Bytes)
  | insertAt (v : Bytes) (index : Nat)
deriving DecidableEq

/-- Execute one call against the C implementation model. -/
def applyVOp (cv : CVector) : VOp → CVector
  | .append v => cvec_append cv v
  | .insertAt v i => cvec_insert cv v i

/-- Execute a call sequence against the C implementation model. -/
def runOps (cv : CVector) : List VOp → CVector
  | [] => cv
  | op :: rest => runOps (applyVOp cv op) rest

/-- Every insertAt of the sequence satisfies the documented precondition
0 <= index <= count at its call; n is the count when the sequence starts. -/
def validOps : Nat → List VOp → Bool
  | _, [] => true
  | n, .append _ :: rest => validOps (n + 1) rest
  | n, .insertAt _ i :: rest => decide (i ≤ n) && validOps (n + 1) rest

/-- Modelled from the spec: the intended effect of InsertAt on the abstract
element sequence, namely placing v at position i and shifting the elements
from position i onward one place to the right. -/
def specInsert (l : List Bytes) (i : Nat) (v : Bytes) : List Bytes :=
  l.take i ++ v :: l.drop i

/-- Modelled from the spec: the intended effect of one call on the abstract
element sequence. -/
def specApply (l : List Bytes) : VOp → List Bytes
  | .append v => l ++ [v]
  | .insertAt v i => specInsert l i v

/-- Modelled from the spec: the abstract element sequence after a call
sequence. -/
def specRun : List Bytes → List VOp → List Bytes
  | l, [] => l
  | l, op :: rest => specRun (specApply l op) rest

/-! ### cmap.c -/

/-- One heap blob of cmap.c, with the next link kept implicitly by its
position in the bucket chain list: key is the NUL-terminated string copied
by set_key, val the valsz bytes copied by set_value. -/
structure Entry where
  key : Bytes
  val : Bytes
deriving DecidableEq

/-- DEFAULT_CAPACITY of cmap.c. -/
def cmapDefaultCapacity : Nat := 1023

/-- The magic multiplier of the hash function of cmap.c. -/
def MULTIPLIER : Nat := 2630849305

/-- The accumulator loop of hash: an unsigned long multiply-accumulate over
the key bytes, wrapping modulo 2^64. -/
def hashLoop : Nat → Bytes → Nat
  | h, [] => h
  | h, c :: s => hashLoop ((h * MULTIPLIER + c) % UINT64) s

/-- hash of cmap.c: the accumulated code reduced modulo nbuckets. -/
def hash (s : Bytes) (nbuckets : Nat) : Nat := hashLoop 0 s % nbuckets

/-- The struct CMapImplementation of cmap.c: buckets holds, per bucket index,
the chain of blobs headed by buckets[i]; clean records whether a
CleanupValueFn was supplied. -/
structure CMap where
  nbuckets : Nat
  valsz : Nat
  count : Nat
  buckets : List (List Entry)
  clean : Bool
deriving DecidableEq

/-- cmap_create of cmap.c: a zero capacity hint selects the default bucket
count, the bucket array is calloc-zeroed so every chain starts empty. The
assert on valuesz being nonzero is a caller precondition. -/
def cmap_create (valuesz capacity_hint : Nat) (fn : Bool) : CMap :=
  let nb := if capacity_hint = 0 then cmapDefaultCapacity else capacity_hint
  { nbuckets := nb, valsz := valuesz, count := 0,
    buckets := List.replicate nb [], clean := fn }

/-- The chain drain of cmap_dispose for one bucket: the while loop walks the
chain from its head, handing each value to the cleanup callback. -/
def drainChain : List Entry → List Bytes
  | [] => []
  | e :: rest => e.val :: drainChain rest

/-- cmap_dispose of cmap.c, observed through the cleanup callback: buckets
are drained in index order, each chain from its head; the returned list
records the values passed to the callback, which is empty when no callback
was configured. -/
def cmap_dispose (cm : CMap) : List Bytes :=
  if cm.clean then (cm.buckets.map drainChain).flatten else []

/-- cmap_count of cmap.c. -/
def cmap_count (cm : CMap) : Nat := cm.count

/-- The chain walk of cmap_put: when an entry with a strcmp-identical key is
found, the old value is handed to the cleanup callback (when configured) and
overwritten in place by set_value; none reports that the key is absent from
the chain. -/
def chainPut (clean : Bool) (k v : Bytes) : List Entry →
    Option (List Entry × List Bytes)
  | [] => none
  | e :: rest =>
    if e.key = k then some (⟨e.key, v⟩ :: rest, if clean then [e.val] else [])
    else
      match chainPut clean k v rest with
      | some (c, cl) => some (e :: c, cl)
      | none => none

/-- cmap_put of cmap.c: hash the key to its bucket; replace in place when the
key already exists (count unchanged), otherwise create_blob a fresh entry and
prepend it to the chain, incrementing count. The second component records the
values handed to the cleanup callback during the call. -/
def cmap_put (cm : CMap) (k v : Bytes) : CMap × List Bytes :=
  let b := hash k cm.nbuckets
  let chain := cm.buckets.getD b []
  match chainPut cm.clean k v chain with
  | some (c, cl) => ({ cm with buckets := cm.buckets.set b c }, cl)
  | none =>
      ({ cm with buckets := cm.buckets.set b (⟨k, v⟩ :: chain),
                 count := cm.count + 1 }, [])

/-- The key comparison of cmap_get, strncmp(stored, key, strlen(key)) == 0:
the first strlen(key) bytes of the stored key are compared, so the
comparison succeeds exactly when the searched key is a prefix of the stored
key (a stored key shorter than the searched key fails at its terminating NUL
byte). -/
def strncmpKeyMatch (stored searchKey : Bytes) : Bool :=
  searchKey.isPrefixOf stored

/-- The chain walk of cmap_get with its strncmp comparison. -/
def chainGet : List Entry → Bytes → Option Bytes
  | [], _ => none
  | e :: rest, k => if strncmpKeyMatch e.key k then some e.val else chainGet rest k

/-- cmap_get of cmap.c: walk the chain of the bucket the key hashes to,
returning the address of the value of the first strncmp-matching entry, or
NULL. -/
def cmap_get (cm : CMap) (k : Bytes) : Option Bytes :=
  chainGet (cm.buckets.getD (hash k cm.nbuckets) []) k

/-- The bucket scan shared by cmap_first and the bucket-jump of cmap_next:
the key of the head entry of the first non-NULL bucket, or NULL. -/
def firstKeyFrom : List (List Entry) → Option Bytes
  | [] => none
  | [] :: rest => firstKeyFrom rest
  | (e :: _) :: _ => some e.key

/-- cmap_first of cmap.c: scan the buckets from index 0. -/
def cmap_first (cm : CMap) : Option Bytes := firstKeyFrom cm.buckets

/-- The blob recovery of cmap_next: prevkey - sizeof(void *) is the entry
whose key field the caller was handed, i.e. the chain position holding
prevkey; the result is the remainder of its chain. The caller contract of
cmap_next requires prevkey to be a live key, under which the entry is unique
in its bucket (see the invariant theorems). -/
def findInChain : List Entry → Bytes → Option (List Entry)
  | [], _ => none
  | e :: rest, k => if e.key = k then some rest else findInChain rest k

/-- cmap_next of cmap.c: when the entry holding prevkey has a same-bucket
successor, its key; otherwise re-hash prevkey and scan the buckets after its
bucket index for the first non-empty one, or NULL. -/
def cmap_next (cm : CMap) (prevkey : Bytes) : Option Bytes :=
  match findInChain (cm.buckets.getD (hash prevkey cm.nbuckets) []) prevkey with
  | some (e :: _) => some e.key
  | _ => firstKeyFrom (cm.buckets.drop (hash prevkey cm.nbuckets + 1))

/-- A full client traversal step sequence: start from a key, repeatedly apply
cmap_next, collecting the visited keys, for at most fuel steps. -/
def traverseFrom (cm : CMap) : Nat → Option Bytes → List Bytes
  | 0, _ => []
  | _ + 1, none => []
  | fuel + 1, some k => k :: traverseFrom cm fuel (cmap_next cm k)

/-- A full client traversal started at cmap_first. -/
def cmap_traverse (cm : CMap) (fuel : Nat) : List Bytes :=
  traverseFrom cm fuel (cmap_first cm)

/-- The keys stored in a bucket array, bucket by bucket, each chain from its
head. -/
def keysOf (bs : List (List Entry)) : List Bytes :=
  (bs.map (fun c => c.map Entry.key)).flatten

/-- The live keys of a table in traversal order. -/
def keyList (cm : CMap) : List Bytes := keysOf cm.buckets

/-- The bucket-array invariant, indexed by the position i of the first listed
bucket: every entry of a chain hashes to the index of its bucket, and within
one chain the keys are distinct. -/
def BucketsWF (nb : Nat) : Nat → List (List Entry) → Prop
  | _, [] => True
  | i, c :: rest =>
      (∀ e ∈ c, hash e.key nb = i) ∧ (c.map Entry.key).Nodup ∧
        BucketsWF nb (i + 1) rest

/-- Structural well-formedness of a table state: a positive bucket count, a
bucket array of exactly that length satisfying the bucket invariant, and a
count equal to the total number of entries. -/
structure CMapWF (cm : CMap) : Prop where
  npos : 0 < cm.nbuckets
  blen : cm.buckets.length = cm.nbuckets
  bwf : BucketsWF cm.nbuckets 0 cm.buckets
  cnt : cm.count = (cm.buckets.map List.length).sum

/-- Table states produced by cmap_create followed by any sequence of
cmap_put calls. -/
inductive Reachable : CMap → Prop where
  | create (valuesz capacity_hint : Nat) (fn : Bool) (hv : valuesz ≠ 0) :
      Reachable (cmap_create valuesz capacity_hint fn)
  | put (cm : CMap) (k v : Bytes) (hr : Reachable cm) :
      Reachable (cmap_put cm k v).1

/-- The call sequence inserting each value at index 0, in the given order. -/
def insertZeroOps (vs : List Bytes) : List VOp :=
  vs.map (fun v => VOp.insertAt v 0)

/-- The vector built by inserting the values of vs at index 0, one by one,
into a fresh vector. -/
def c7vec (elemsz capacity_hint : Nat) (fn : Bool) (vs : List Bytes) : CVector :=
  runOps (cvec_create elemsz capacity_hint fn) (insertZeroOps vs)

/-! ### Concrete states used by the code-bug and counterexample theorems -/

/-- A caller-supplied three-way comparator on single-byte elements. -/
def byteCmp (a b : Bytes) : Int := (a.headD 0 : Int) - (b.headD 0)

/-- The vector holding the two equal single-byte elements 5, 5. -/
def c6sortedDup : CVector :=
  runOps (cvec_create 1 2 false) [VOp.append [5], VOp.append [5]]

/-- The vector holding the single-byte elements 1, 2. -/
def c6demo : CVector :=
  runOps (cvec_create 1 2 false) [VOp.append [1], VOp.append [2]]

/-- A one-bucket table whose chain holds "ab" before "a": Put "a", then
Put "ab" (prepended ahead of it). -/
def c2_table : CMap :=
  (cmap_put (cmap_put (cmap_create 1 1 true) [97] [0]).1 [97, 98] [7]).1

/-- State and cleanup log after the first of the two puts of the claim. -/
def c2_afterPut1 : CMap × List Bytes := cmap_put c2_table [97] [1]

/-- State and cleanup log after the second of the two puts of the claim. -/
def c2_afterPut2 : CMap × List Bytes := cmap_put c2_afterPut1.1 [97] [2]

/-- A three-bucket table holding the keys "a", "b", "c" (one byte each) with
one-byte values 1, 2, 3, built by three puts. -/
def demoMap : CMap :=
  (cmap_put (cmap_put (cmap_put (cmap_create 1 3 true) [97] [1]).1
    [98] [2]).1 [99] [3]).1

/-- A two-element vector with a cleanup callback configured. -/
def c8vec : CVector :=
  runOps (cvec_create 1 0 true) [VOp.append [1], VOp.append [2]]

/-! ### Helper lemmas about the vector -/

/-- The live region of a well-formed vector has exactly size elements. -/
theorem liveView_length (cv : CVector) (h : CVectorWF cv) :
    (liveView cv).length = cv.size := by
  obtain ⟨h1, h2, _⟩ := h
  simp only [liveView, List.length_take, h1]
  omega

/-- Creation always yields a well-formed vector. -/
theorem cvec_create_wf (elemsz capacity_hint : Nat) (fn : Bool) :
    CVectorWF (cvec_create elemsz capacity_hint fn) := by
  unfold CVectorWF cvec_create
  by_cases h : capacity_hint = 0 <;>
    simp [h, cvecDefaultCapacity, Nat.pos_of_ne_zero]

/-- The memmove plus memcpy of cvec_insert, on the raw slot list: the result
keeps the buffer length and its first n + 1 slots are the old first i slots,
the new element, and the old slots i .. n-1. -/
theorem shiftRight_set_spec (L : List Bytes) (i n : Nat) (v : Bytes)
    (hin : i ≤ n) (hnL : n < L.length) :
    ((shiftRight L i n).set i v).length = L.length ∧
    ((shiftRight L i n).set i v).take (n + 1) =
      L.take i ++ v :: ((L.take n).drop i) := by
  have hA : (L.take (i + 1)).length = i + 1 := by
    simp only [List.length_take]; omega
  have hB : ((L.drop i).take (n - i)).length = n - i := by
    simp only [List.length_take, List.length_drop]; omega
  have hAB : (L.take (i + 1) ++ (L.drop i).take (n - i)).length = n + 1 := by
    simp only [List.length_append, hA, hB]; omega
  have h2 : (shiftRight L i n).take (n + 1) =
      L.take (i + 1) ++ (L.drop i).take (n - i) := by
    unfold shiftRight
    rw [List.take_append_eq_append_take, hAB, Nat.sub_self, List.take_zero,
      List.append_nil, List.take_of_length_le (Nat.le_of_eq hAB)]
  have h3 : (L.take (i + 1)).set i v = L.take i ++ [v] := by
    rw [List.set_eq_take_cons_drop v (by omega : i < (L.take (i + 1)).length),
      List.take_take, Nat.min_eq_left (Nat.le_add_right i 1),
      List.drop_of_length_le (Nat.le_of_eq hA)]
  have h4 : (L.drop i).take (n - i) = (L.take n).drop i := by
    rw [List.take_drop, Nat.add_sub_cancel' hin]
  constructor
  · simp only [List.length_set]
    unfold shiftRight
    simp only [List.length_append, List.length_take, List.length_drop]
    omega
  · rw [List.set_take, h2,
      List.set_append_left i v (by omega : i < (L.take (i + 1)).length),
      h3, h4, List.append_assoc, List.singleton_append]

/-- One cvec_insert at a valid index refines the abstract shift-and-place
operation on the live elements, grows size by one, and preserves
well-formedness (through a capacity doubling when the buffer was full). -/
theorem cvec_insert_spec (cv : CVector) (v : Bytes) (index : Nat)
    (hwf : CVectorWF cv) (hidx : index ≤ cv.size) :
    CVectorWF (cvec_insert cv v index) ∧
    (cvec_insert cv v index).size = cv.size + 1 ∧
    liveView (cvec_insert cv v index) = specInsert (liveView cv) index v := by
  obtain ⟨hlen, hsz, hpos⟩ := hwf
  have hmain : ∀ cv1 : CVector, cv1.size = cv.size →
      cv1.data.length = cv1.capacity → cv.size < cv1.capacity →
      cv1.data.take cv.size = cv.data.take cv.size →
      CVectorWF (insertCore cv1 v index) ∧
      (insertCore cv1 v index).size = cv.size + 1 ∧
      liveView (insertCore cv1 v index) = specInsert (liveView cv) index v := by
    intro cv1 hs1 hl1 hc1 ht1
    have hnL : cv.size < cv1.data.length := by omega
    obtain ⟨hlen2, htake2⟩ :=
      shiftRight_set_spec cv1.data index cv.size v hidx hnL
    refine ⟨⟨?_, ?_, ?_⟩, ?_, ?_⟩
    · show ((shiftRight cv1.data index cv1.size).set index v).length = cv1.capacity
      rw [hs1, hlen2, hl1]
    · show cv1.size + 1 ≤ cv1.capacity
      omega
    · show 0 < cv1.capacity
      omega
    · show cv1.size + 1 = cv.size + 1
      omega
    · show ((shiftRight cv1.data index cv1.size).set index v).take (cv1.size + 1) =
        specInsert (liveView cv) index v
      rw [hs1, htake2]
      unfold specInsert liveView
      have h5 : cv1.data.take index = (cv.data.take cv.size).take index := by
        rw [← ht1, List.take_take, Nat.min_eq_left hidx]
      rw [h5, ht1]
  unfold cvec_insert
  by_cases h : cv.size = cv.capacity
  · rw [if_pos h]
    refine hmain (cvec_expand cv) rfl ?_ ?_ ?_
    · show (cv.data ++ List.replicate cv.capacity (List.replicate cv.elemsz 0)).length =
        cv.capacity * 2
      rw [List.length_append, List.length_replicate, hlen]
      ring
    · show cv.size < cv.capacity * 2
      omega
    · show (cv.data ++ List.replicate cv.capacity (List.replicate cv.elemsz 0)).take cv.size =
        cv.data.take cv.size
      rw [List.take_append_of_le_length (by omega)]
  · rw [if_neg h]
    exact hmain cv rfl hlen (by omega) rfl

/-- Running a precondition-respecting call sequence refines the abstract
element-sequence semantics and adds one element per call. -/
theorem runOps_spec (ops : List VOp) : ∀ cv : CVector, CVectorWF cv →
    validOps cv.size ops = true →
    CVectorWF (runOps cv ops) ∧
    (runOps cv ops).size = cv.size + ops.length ∧
    liveView (runOps cv ops) = specRun (liveView cv) ops := by
  induction ops with
  | nil => exact fun cv hwf _ => ⟨hwf, by simp [runOps], rfl⟩
  | cons op rest ih =>
    intro cv hwf hvalid
    cases op with
    | append v =>
      simp only [validOps] at hvalid
      obtain ⟨hw1, hs1, hl1⟩ := cvec_insert_spec cv v cv.size hwf (Nat.le_refl _)
      obtain ⟨hw2, hs2, hl2⟩ :=
        ih (cvec_insert cv v cv.size) hw1 (by rw [hs1]; exact hvalid)
      have hrun : runOps cv (VOp.append v :: rest) =
          runOps (cvec_insert cv v cv.size) rest := rfl
      refine ⟨hrun ▸ hw2, ?_, ?_⟩
      · rw [hrun, hs2, hs1]; simp; omega
      · rw [hrun, hl2, hl1]
        show specRun (specInsert (liveView cv) cv.size v) rest =
          specRun (specApply (liveView cv) (VOp.append v)) rest
        congr 1
        unfold specApply specInsert
        rw [← liveView_length cv hwf]
        rw [List.take_length, List.drop_length]
    | insertAt v i =>
      simp only [validOps, Bool.and_eq_true, decide_eq_true_eq] at hvalid
      obtain ⟨hile, hvrest⟩ := hvalid
      obtain ⟨hw1, hs1, hl1⟩ := cvec_insert_spec cv v i hwf hile
      obtain ⟨hw2, hs2, hl2⟩ :=
        ih (cvec_insert cv v i) hw1 (by rw [hs1]; exact hvrest)
      have hrun : runOps cv (VOp.insertAt v i :: rest) =
          runOps (cvec_insert cv v i) rest := rfl
      refine ⟨hrun ▸ hw2, ?_, ?_⟩
      · rw [hrun, hs2, hs1]; simp; omega
      · rw [hrun, hl2, hl1]; rfl

/-! ### Claim C1: cmap_get on a never-inserted key -/

/-- C1 (code bug witness): in a one-bucket table holding only the key "ab"
(bytes [97, 98]), cmap_get for the never-inserted key "a" (bytes [97])
returns the stored value instead of the NULL not-found sentinel, because the
strncmp comparison of cmap_get only checks strlen(key) bytes and therefore
accepts any stored key that the searched key is a prefix of. -/
theorem c1_get_missing_key_prefix_bug :
    cmap_get ((cmap_put (cmap_create 1 1 false) [97, 98] [7]).1) [97] = some [7] ∧
    cmap_get ((cmap_put (cmap_create 1 1 false) [97, 98] [7]).1) [97] ≠ none := by
  decide

/-! ### Claim C2: Put k v1 then Put k v2 -/

/-- C2 (code bug witness): after Put("a", v1) followed by Put("a", v2) on a
table whose bucket chain lists "ab" ahead of "a", the count is unchanged and
the cleanup callback was invoked exactly once, on v1, between the puts — but
cmap_get("a") returns the value stored under "ab", not the bytes of v2,
through the same strncmp prefix acceptance as in C1. -/
theorem c2_put_put_get_prefix_bug :
    c2_afterPut2.1.count = c2_afterPut1.1.count ∧
    c2_afterPut2.2 = [[1]] ∧
    cmap_get c2_afterPut2.1 [97] = some [7] ∧
    ([7] : Bytes) ≠ [2] := by
  decide

/-! ### Claim C4: the bounds assert of cvec_nth -/

/-- C4 (code bug witness): on an empty vector the assert of cvec_nth passes
for index 0 instead of failing, because the size_t subtraction cv.size - 1
wraps to 2^64 - 1, so the unsigned comparison index <= cv.size - 1 holds for
every nonnegative index; the fatal bounds error required by the claim is
never raised and an address is returned. -/
theorem c4_nth_assert_underflow_bug :
    (cvec_create 4 8 false).size = 0 ∧
    cvec_nth_assert (cvec_create 4 8 false) 0 = true := by
  decide

end CvectorCmap

namespace CvectorCmap

/-! ### Claim C5: Append/InsertAt sequences refine the abstract sequence -/

/-- C5: for every sequence of Append and InsertAt calls in which each
InsertAt index satisfies the documented precondition 0 <= index <= count at
its call (growth-triggering sequences included), the final count equals the
number of calls, and ElementAt(i) returns exactly the bytes last written at
logical position i — the semantics in which InsertAt places its value at the
index and shifts the elements from the index onward one slot right. -/
theorem c5_insert_sequence_correct (elemsz capacity_hint : Nat) (fn : Bool)
    (ops : List VOp) (hv : validOps 0 ops = true) :
    cvec_count (runOps (cvec_create elemsz capacity_hint fn) ops) = ops.length ∧
    ∀ i, i < cvec_count (runOps (cvec_create elemsz capacity_hint fn) ops) →
      cvec_nth (runOps (cvec_create elemsz capacity_hint fn) ops) i =
        (specRun [] ops).getD i [] := by
  obtain ⟨hw, hs, hl⟩ := runOps_spec ops (cvec_create elemsz capacity_hint fn)
    (cvec_create_wf elemsz capacity_hint fn) hv
  have hlv0 : liveView (cvec_create elemsz capacity_hint fn) = [] := by
    simp [liveView, cvec_create]
  rw [hlv0] at hl
  constructor
  · show (runOps (cvec_create elemsz capacity_hint fn) ops).size = ops.length
    rw [hs, show (cvec_create elemsz capacity_hint fn).size = 0 from rfl]
    omega
  · intro i hi
    have hi2 : i < (runOps (cvec_create elemsz capacity_hint fn) ops).size := hi
    have hdata : i < (runOps (cvec_create elemsz capacity_hint fn) ops).data.length := by
      obtain ⟨a, b, c⟩ := hw; omega
    have hsel : (liveView (runOps (cvec_create elemsz capacity_hint fn) ops)).getD i [] =
        (runOps (cvec_create elemsz capacity_hint fn) ops).data.getD i [] := by
      unfold liveView
      rw [List.getD_eq_getElem?_getD, List.getD_eq_getElem?_getD,
        List.getElem?_take, if_pos hi2]
    rw [← hl, hsel]
    rfl

/-- C5 witness: a concrete three-call sequence that doubles the capacity of a
one-slot vector, evaluated through the theorem. -/
theorem c5_insert_sequence_correct_witness :
    cvec_count (runOps (cvec_create 1 1 false)
      [VOp.append [1], VOp.append [2], VOp.insertAt [3] 0]) = 3 ∧
    ∀ i, i < cvec_count (runOps (cvec_create 1 1 false)
        [VOp.append [1], VOp.append [2], VOp.insertAt [3] 0]) →
      cvec_nth (runOps (cvec_create 1 1 false)
          [VOp.append [1], VOp.append [2], VOp.insertAt [3] 0]) i =
        (specRun [] [VOp.append [1], VOp.append [2], VOp.insertAt [3] 0]).getD i [] :=
  c5_insert_sequence_correct 1 1 false
    [VOp.append [1], VOp.append [2], VOp.insertAt [3] 0] (by decide)

/-! ### Helper lemmas for vector iteration -/

/-- Iterating with cvec_next from a live slot index yields exactly the live
elements from that index on. -/
theorem cvecIterFrom_liveView (cv : CVector) (hwf : CVectorWF cv) :
    ∀ (d i fuel : Nat), i < cv.size → cv.size - i ≤ fuel → cv.size - i ≤ d →
      cvecIterFrom cv fuel (some i) = (liveView cv).drop i := by
  intro d
  induction d with
  | zero => intro i fuel hi h1 h2; omega
  | succ d ih =>
    intro i fuel hi h1 h2
    obtain ⟨f, rfl⟩ : ∃ f, fuel = f + 1 := ⟨fuel - 1, by omega⟩
    have hlen := liveView_length cv hwf
    have hdata : i < cv.data.length := by
      obtain ⟨a, b, c⟩ := hwf; omega
    have hdrop : (liveView cv).drop i =
        cvec_nth cv i :: (liveView cv).drop (i + 1) := by
      rw [List.drop_eq_getElem_cons (by omega : i < (liveView cv).length)]
      congr 1
      simp only [liveView, List.getElem_take]
      show cv.data[i] = cv.data.getD i []
      rw [List.getD_eq_getElem?_getD, List.getElem?_eq_getElem hdata]
      rfl
    show cvec_nth cv i :: cvecIterFrom cv f (cvec_next cv i) = (liveView cv).drop i
    by_cases hlast : i + 1 = cv.size
    · rw [show cvec_next cv i = none from by unfold cvec_next; rw [if_pos hlast]]
      have hnil : (liveView cv).drop (i + 1) = [] :=
        List.drop_of_length_le (by omega)
      rw [hdrop, hnil]
      cases f <;> rfl
    · rw [show cvec_next cv i = some (i + 1) from by
        unfold cvec_next; rw [if_neg hlast]]
      rw [ih (i + 1) f (by omega) (by omega) (by omega), hdrop]

/-- A fully fueled iteration from cvec_first reads out exactly the live
elements, in slot order. -/
theorem cvecIter_liveView (cv : CVector) (hwf : CVectorWF cv) (fuel : Nat)
    (hfuel : cv.size ≤ fuel) : cvecIter cv fuel = liveView cv := by
  unfold cvecIter cvec_first
  by_cases h : cv.size = 0
  · rw [if_pos h]
    have : liveView cv = [] := by simp [liveView, h]
    rw [this]
    cases fuel <;> rfl
  · rw [if_neg h]
    rw [cvecIterFrom_liveView cv hwf cv.size 0 fuel (by omega) (by omega) (by omega)]
    rfl

/-- Inserting every element at index 0 reverses the order on the abstract
sequence. -/
theorem specRun_insert_zero : ∀ (vs : List Bytes) (l : List Bytes),
    specRun l (insertZeroOps vs) = vs.reverse ++ l := by
  intro vs
  induction vs with
  | nil => intro l; simp [insertZeroOps, specRun]
  | cons v vs ih =>
    intro l
    show specRun (specApply l (VOp.insertAt v 0)) (insertZeroOps vs) =
      (v :: vs).reverse ++ l
    rw [show specApply l (VOp.insertAt v 0) = v :: l from by
      simp [specApply, specInsert]]
    rw [ih (v :: l)]
    simp

/-- Every insert-at-0 call satisfies the InsertAt precondition. -/
theorem validOps_insert_zero : ∀ (vs : List Bytes) (n : Nat),
    validOps n (insertZeroOps vs) = true := by
  intro vs
  induction vs with
  | nil => intro n; rfl
  | cons v vs ih =>
    intro n
    show validOps n (VOp.insertAt v 0 :: insertZeroOps vs) = true
    simp [validOps, ih (n + 1)]

end CvectorCmap

namespace CvectorCmap

/-! ### Claim C7: vector iteration and reverse insertion order -/

/-- C7: on the vector built by inserting e1..en each at index 0, cvec_first
returns the address of slot 0 (none when empty), cvec_next returns the next
slot address for every live non-last slot and none for the last one, and the
full front-to-back traversal via cvec_first and cvec_next reads out
en, ..., e1, the reverse of the insertion order. -/
theorem c7_iteration_reverse_order (elemsz capacity_hint : Nat) (fn : Bool)
    (vs : List Bytes) (fuel : Nat) (hfuel : vs.length ≤ fuel) :
    (cvec_first (c7vec elemsz capacity_hint fn vs) =
      if vs.length = 0 then none else some 0) ∧
    (∀ i, i + 1 < vs.length →
      cvec_next (c7vec elemsz capacity_hint fn vs) i = some (i + 1)) ∧
    (0 < vs.length →
      cvec_next (c7vec elemsz capacity_hint fn vs) (vs.length - 1) = none) ∧
    cvecIter (c7vec elemsz capacity_hint fn vs) fuel = vs.reverse := by
  obtain ⟨hw, hs, hl⟩ := runOps_spec (insertZeroOps vs)
    (cvec_create elemsz capacity_hint fn)
    (cvec_create_wf elemsz capacity_hint fn)
    (validOps_insert_zero vs (cvec_create elemsz capacity_hint fn).size)
  have hsize : (c7vec elemsz capacity_hint fn vs).size = vs.length := by
    show (runOps (cvec_create elemsz capacity_hint fn) (insertZeroOps vs)).size =
      vs.length
    rw [hs, show (cvec_create elemsz capacity_hint fn).size = 0 from rfl]
    simp [insertZeroOps]
  have hlive : liveView (c7vec elemsz capacity_hint fn vs) = vs.reverse := by
    show liveView (runOps (cvec_create elemsz capacity_hint fn) (insertZeroOps vs)) =
      vs.reverse
    rw [hl, show liveView (cvec_create elemsz capacity_hint fn) = [] from by
      simp [liveView, cvec_create], specRun_insert_zero]
    simp
  refine ⟨?_, ?_, ?_, ?_⟩
  · unfold cvec_first
    rw [hsize]
  · intro i hi
    unfold cvec_next
    rw [hsize, if_neg (by omega)]
  · intro hpos
    unfold cvec_next
    rw [hsize, if_pos (by omega)]
  · show cvecIter (runOps (cvec_create elemsz capacity_hint fn)
      (insertZeroOps vs)) fuel = vs.reverse
    rw [cvecIter_liveView _ hw fuel (by
      show (c7vec elemsz capacity_hint fn vs).size ≤ fuel
      rw [hsize]; exact hfuel)]
    exact hlive

/-- C7 witness: three single-byte elements inserted at index 0 into a
one-slot vector, traversed with exactly enough fuel. -/
theorem c7_iteration_reverse_order_witness :
    (cvec_first (c7vec 1 1 false [[1], [2], [3]]) =
      if ([[1], [2], [3]] : List Bytes).length = 0 then none else some 0) ∧
    (∀ i, i + 1 < ([[1], [2], [3]] : List Bytes).length →
      cvec_next (c7vec 1 1 false [[1], [2], [3]]) i = some (i + 1)) ∧
    (0 < ([[1], [2], [3]] : List Bytes).length →
      cvec_next (c7vec 1 1 false [[1], [2], [3]])
        (([[1], [2], [3]] : List Bytes).length - 1) = none) ∧
    cvecIter (c7vec 1 1 false [[1], [2], [3]]) 3 =
      ([[1], [2], [3]] : List Bytes).reverse :=
  c7_iteration_reverse_order 1 1 false [[1], [2], [3]] 3 (by decide)

/-! ### Claim C10: search over the empty sub-range -/

/-- C10: calling cvec_search with start equal to the current count — on an
empty or non-empty vector, in either mode — passes the precondition assert
and returns the not-found sentinel -1: the searched sub-range count - start
is empty, so both the bsearch and the lfind call report a miss. The model of
cvec_search is a pure function of the vector, so the vector is unchanged by
construction. -/
theorem c10_search_empty_range (cv : CVector) (key : Bytes)
    (cmp : Bytes → Bytes → Int) :
    cvec_search_assert cv (cv.size : Int) = true ∧
    cvec_search cv key cmp cv.size true = -1 ∧
    cvec_search cv key cmp cv.size false = -1 := by
  refine ⟨?_, ?_, ?_⟩
  · unfold cvec_search_assert
    simp only [Bool.and_eq_true, decide_eq_true_eq]
    refine ⟨Int.natCast_nonneg _, ?_⟩
    rw [Int.toNat_natCast]
    exact Nat.le_trans (Nat.mod_le _ _) (Nat.le_refl _)
  · simp [cvec_search, Nat.sub_self, bsearchLoop]
  · simp [cvec_search, Nat.sub_self, lfindLoop]

end CvectorCmap

namespace CvectorCmap

/-! ### Helper lemmas for cvec_search -/

/-- A hit of the linear scan is the first zero comparison in its window. -/
theorem lfindLoop_some (f : Nat → Int) :
    ∀ (rem i0 j : Nat), lfindLoop f i0 rem = some j →
      i0 ≤ j ∧ j < i0 + rem ∧ f j = 0 ∧ ∀ t, i0 ≤ t → t < j → f t ≠ 0 := by
  intro rem
  induction rem with
  | zero => intro i0 j h; exact absurd h (by simp [lfindLoop])
  | succ rem ih =>
    intro i0 j h
    unfold lfindLoop at h
    by_cases hf : f i0 = 0
    · rw [if_pos hf, Option.some.injEq] at h
      subst h
      exact ⟨Nat.le_refl _, by omega, hf, fun t ht1 ht2 => by omega⟩
    · rw [if_neg hf] at h
      obtain ⟨h1, h2, h3, h4⟩ := ih (i0 + 1) j h
      refine ⟨by omega, by omega, h3, ?_⟩
      intro t ht1 ht2
      by_cases ht : t = i0
      · rw [ht]; exact hf
      · exact h4 t (by omega) ht2

/-- A miss of the linear scan means no zero comparison in its window. -/
theorem lfindLoop_none (f : Nat → Int) :
    ∀ (rem i0 : Nat), lfindLoop f i0 rem = none →
      ∀ t, i0 ≤ t → t < i0 + rem → f t ≠ 0 := by
  intro rem
  induction rem with
  | zero => intro i0 _ t ht1 ht2; omega
  | succ rem ih =>
    intro i0 h t ht1 ht2
    unfold lfindLoop at h
    by_cases hf : f i0 = 0
    · rw [if_pos hf] at h; exact absurd h (by simp)
    · rw [if_neg hf] at h
      by_cases ht : t = i0
      · rw [ht]; exact hf
      · exact ih (i0 + 1) h t (by omega) (by omega)

/-- A hit of the binary search lies in its window and compares as zero. -/
theorem bsearchLoop_some (f : Nat → Int) :
    ∀ (fuel l u j : Nat), bsearchLoop f l u fuel = some j →
      l ≤ j ∧ j < u ∧ f j = 0 := by
  intro fuel
  induction fuel with
  | zero => intro l u j h; exact absurd h (by simp [bsearchLoop])
  | succ fuel ih =>
    intro l u j h
    unfold bsearchLoop at h
    by_cases hlu : l < u
    · rw [if_pos hlu] at h
      have hdiv1 : l ≤ (l + u) / 2 :=
        (Nat.le_div_iff_mul_le (by omega)).2 (by omega)
      have hdiv2 : (l + u) / 2 < u :=
        (Nat.div_lt_iff_lt_mul (by omega)).2 (by omega)
      by_cases h1 : f ((l + u) / 2) < 0
      · rw [if_pos h1] at h
        obtain ⟨a, b, c⟩ := ih l ((l + u) / 2) j h
        exact ⟨a, by omega, c⟩
      · rw [if_neg h1] at h
        by_cases h2 : 0 < f ((l + u) / 2)
        · rw [if_pos h2] at h
          obtain ⟨a, b, c⟩ := ih ((l + u) / 2 + 1) u j h
          exact ⟨by omega, b, c⟩
        · rw [if_neg h2, Option.some.injEq] at h
          subst h
          exact ⟨hdiv1, hdiv2, by omega⟩
    · rw [if_neg hlu] at h; exact absurd h (by simp)

/-- Over a window whose comparison signs descend — positive before zero
before negative, as on a subarray sorted for the searched key — a miss of the
binary search means no index of the window compares as zero. -/
theorem bsearchLoop_none (f : Nat → Int) (num : Nat)
    (hup : ∀ a b, a ≤ b → b < num → 0 < f b → 0 < f a)
    (hdown : ∀ a b, a ≤ b → b < num → f a < 0 → f b < 0) :
    ∀ (fuel l u : Nat), u - l ≤ fuel → u ≤ num →
      bsearchLoop f l u fuel = none → ∀ t, l ≤ t → t < u → f t ≠ 0 := by
  intro fuel
  induction fuel with
  | zero => intro l u hf hu _ t ht1 ht2; omega
  | succ fuel ih =>
    intro l u hf hu h t ht1 ht2
    unfold bsearchLoop at h
    have hlu : l < u := by omega
    rw [if_pos hlu] at h
    have hdiv1 : l ≤ (l + u) / 2 :=
      (Nat.le_div_iff_mul_le (by omega)).2 (by omega)
    have hdiv2 : (l + u) / 2 < u :=
      (Nat.div_lt_iff_lt_mul (by omega)).2 (by omega)
    by_cases h1 : f ((l + u) / 2) < 0
    · rw [if_pos h1] at h
      by_cases ht : t < (l + u) / 2
      · exact ih l ((l + u) / 2) (by omega) (by omega) h t ht1 ht
      · have : f t < 0 := hdown ((l + u) / 2) t (by omega) (by omega) h1
        omega
    · rw [if_neg h1] at h
      by_cases h2 : 0 < f ((l + u) / 2)
      · rw [if_pos h2] at h
        by_cases ht : (l + u) / 2 + 1 ≤ t
        · exact ih ((l + u) / 2 + 1) u (by omega) hu h t ht ht2
        · have : 0 < f t := hup t ((l + u) / 2) (by omega) (by omega) h2
          omega
      · rw [if_neg h2] at h
        exact absurd h (by simp)

/-- cvec_search in linear mode, unfolded to its lfind call. -/
theorem cvec_search_linear_eq (cv : CVector) (key : Bytes)
    (cmp : Bytes → Bytes → Int) (start : Nat) :
    cvec_search cv key cmp start false =
      match lfindLoop (fun i => cmp key (get_nth cv (start + i))) 0
          (cv.size - start) with
      | none => -1
      | some i => ((start + i : Nat) : Int) := rfl

/-- cvec_search in sorted mode, unfolded to its bsearch call. -/
theorem cvec_search_sorted_eq (cv : CVector) (key : Bytes)
    (cmp : Bytes → Bytes → Int) (start : Nat) :
    cvec_search cv key cmp start true =
      match bsearchLoop (fun i => cmp key (get_nth cv (start + i))) 0
          (cv.size - start) (cv.size - start) with
      | none => -1
      | some i => ((start + i : Nat) : Int) := rfl

end CvectorCmap

namespace CvectorCmap

/-! ### Claim C6: cvec_search (corrected) -/

/-- C6 counterexample: on the two-element vector 5, 5 — sorted for the
single-byte comparator, both elements matching the key — a sorted-mode
search for 5 starting at 0 returns index 1, although the first matching
element of the sub-range sits at index 0; cvec_search therefore does not
return the index of the first matching element in sorted mode. -/
theorem c6_search_sorted_not_first_counterexample :
    cvec_search c6sortedDup [5] byteCmp 0 true = 1 ∧
    byteCmp [5] (cvec_nth c6sortedDup 0) = 0 ∧
    byteCmp (cvec_nth c6sortedDup 0) (cvec_nth c6sortedDup 1) ≤ 0 ∧
    cvec_search c6sortedDup [5] byteCmp 0 true ≠ 0 := by
  decide

/-- C6 (amended): for start within bounds, linear-mode cvec_search returns
the index of the first element of [start, count) comparing equal to the key,
or -1 when none does; sorted-mode cvec_search — under the sortedness of the
sub-range relative to the key that the claim assumes — returns the index of
some (not necessarily the first) element of [start, count) comparing equal
to the key, or -1 when none does. -/
theorem c6_search_spec (cv : CVector) (key : Bytes)
    (cmp : Bytes → Bytes → Int) (start : Nat) (hstart : start ≤ cv.size) :
    ((cvec_search cv key cmp start false = -1 ∧
        ∀ i, start ≤ i → i < cv.size → cmp key (cvec_nth cv i) ≠ 0) ∨
      (∃ i : Nat, cvec_search cv key cmp start false = (i : Int) ∧ start ≤ i ∧
        i < cv.size ∧ cmp key (cvec_nth cv i) = 0 ∧
        ∀ j, start ≤ j → j < i → cmp key (cvec_nth cv j) ≠ 0)) ∧
    ((∀ i, i < cv.size → ∀ j, j < cv.size → start ≤ i → i ≤ j →
        (0 < cmp key (cvec_nth cv j) → 0 < cmp key (cvec_nth cv i)) ∧
        (cmp key (cvec_nth cv i) < 0 → cmp key (cvec_nth cv j) < 0)) →
      ((cvec_search cv key cmp start true = -1 ∧
          ∀ i, start ≤ i → i < cv.size → cmp key (cvec_nth cv i) ≠ 0) ∨
        (∃ i : Nat, cvec_search cv key cmp start true = (i : Int) ∧ start ≤ i ∧
          i < cv.size ∧ cmp key (cvec_nth cv i) = 0))) := by
  constructor
  · cases hres : lfindLoop (fun i => cmp key (get_nth cv (start + i))) 0
        (cv.size - start) with
    | none =>
      left
      constructor
      · rw [cvec_search_linear_eq, hres]
      · intro i h1 h2
        have hfind : cmp key (get_nth cv (start + (i - start))) ≠ 0 :=
          lfindLoop_none
            (fun i => cmp key (get_nth cv (start + i))) (cv.size - start) 0 hres
            (i - start) (by omega) (by omega)
        rw [show start + (i - start) = i from by omega] at hfind
        exact hfind
    | some j =>
      right
      obtain ⟨h1, h2, h3, h4⟩ := lfindLoop_some
        (fun i => cmp key (get_nth cv (start + i))) (cv.size - start) 0 j hres
      refine ⟨start + j, ?_, by omega, by omega, h3, ?_⟩
      · rw [cvec_search_linear_eq, hres]
      · intro t ht1 ht2
        have hfind : cmp key (get_nth cv (start + (t - start))) ≠ 0 :=
          h4 (t - start) (by omega) (by omega)
        rw [show start + (t - start) = t from by omega] at hfind
        exact hfind
  · intro hsor
    cases hres : bsearchLoop (fun i => cmp key (get_nth cv (start + i))) 0
        (cv.size - start) (cv.size - start) with
    | none =>
      left
      constructor
      · rw [cvec_search_sorted_eq, hres]
      · intro i h1 h2
        have hup : ∀ a b, a ≤ b → b < cv.size - start →
            0 < cmp key (get_nth cv (start + b)) →
            0 < cmp key (get_nth cv (start + a)) := by
          intro a b hab hb hfb
          exact (hsor (start + a) (by omega) (start + b) (by omega)
            (by omega) (by omega)).1 hfb
        have hdown : ∀ a b, a ≤ b → b < cv.size - start →
            cmp key (get_nth cv (start + a)) < 0 →
            cmp key (get_nth cv (start + b)) < 0 := by
          intro a b hab hb hfa
          exact (hsor (start + a) (by omega) (start + b) (by omega)
            (by omega) (by omega)).2 hfa
        have hfind : cmp key (get_nth cv (start + (i - start))) ≠ 0 :=
          bsearchLoop_none
            (fun i => cmp key (get_nth cv (start + i))) (cv.size - start)
            hup hdown (cv.size - start) 0 (cv.size - start) (by omega)
            (Nat.le_refl _) hres (i - start) (by omega) (by omega)
        rw [show start + (i - start) = i from by omega] at hfind
        exact hfind
    | some j =>
      right
      obtain ⟨h1, h2, h3⟩ := bsearchLoop_some
        (fun i => cmp key (get_nth cv (start + i))) (cv.size - start) 0
        (cv.size - start) j hres
      exact ⟨start + j, by rw [cvec_search_sorted_eq, hres], by omega,
        by omega, h3⟩

/-- C6 witness: the amended claim evaluated on the vector 1, 2 with the
single-byte comparator, searching for 2 from start 0. -/
theorem c6_search_spec_witness :
    ((cvec_search c6demo [2] byteCmp 0 false = -1 ∧
        ∀ i, 0 ≤ i → i < c6demo.size → byteCmp [2] (cvec_nth c6demo i) ≠ 0) ∨
      (∃ i : Nat, cvec_search c6demo [2] byteCmp 0 false = (i : Int) ∧ 0 ≤ i ∧
        i < c6demo.size ∧ byteCmp [2] (cvec_nth c6demo i) = 0 ∧
        ∀ j, 0 ≤ j → j < i → byteCmp [2] (cvec_nth c6demo j) ≠ 0)) ∧
    ((∀ i, i < c6demo.size → ∀ j, j < c6demo.size → 0 ≤ i → i ≤ j →
        (0 < byteCmp [2] (cvec_nth c6demo j) → 0 < byteCmp [2] (cvec_nth c6demo i)) ∧
        (byteCmp [2] (cvec_nth c6demo i) < 0 → byteCmp [2] (cvec_nth c6demo j) < 0)) →
      ((cvec_search c6demo [2] byteCmp 0 true = -1 ∧
          ∀ i, 0 ≤ i → i < c6demo.size → byteCmp [2] (cvec_nth c6demo i) ≠ 0) ∨
        (∃ i : Nat, cvec_search c6demo [2] byteCmp 0 true = (i : Int) ∧ 0 ≤ i ∧
          i < c6demo.size ∧ byteCmp [2] (cvec_nth c6demo i) = 0))) :=
  c6_search_spec c6demo [2] byteCmp 0 (by decide)

end CvectorCmap

namespace CvectorCmap

/-! ### Helper lemmas about the table invariant -/

/-- Reading bucket j of a well-formed bucket array: its entries hash to its
index and its keys are distinct. -/
theorem bucketsWF_getD (nb : Nat) :
    ∀ (L : List (List Entry)) (i j : Nat), BucketsWF nb i L → j < L.length →
      (∀ e ∈ L.getD j [], hash e.key nb = i + j) ∧
      ((L.getD j []).map Entry.key).Nodup := by
  intro L
  induction L with
  | nil => intro i j _ hj; simp at hj
  | cons c rest ih =>
    intro i j hwf hj
    simp only [BucketsWF] at hwf
    obtain ⟨h1, h2, h3⟩ := hwf
    cases j with
    | zero => exact ⟨by simpa using h1, by simpa using h2⟩
    | succ j =>
      obtain ⟨ha, hb⟩ := ih (i + 1) j h3 (by simpa using hj)
      constructor
      · intro e he
        have h4 := ha e (by simpa using he)
        omega
      · simpa using hb

/-- Replacing bucket j with a chain that respects its index keeps the
bucket-array invariant. -/
theorem bucketsWF_set (nb : Nat) :
    ∀ (L : List (List Entry)) (i j : Nat) (c2 : List Entry),
      BucketsWF nb i L → (∀ e ∈ c2, hash e.key nb = i + j) →
      (c2.map Entry.key).Nodup → BucketsWF nb i (L.set j c2) := by
  intro L
  induction L with
  | nil => intro i j c2 hwf _ _; simpa using hwf
  | cons c rest ih =>
    intro i j c2 hwf hh hn
    simp only [BucketsWF] at hwf
    obtain ⟨h1, h2, h3⟩ := hwf
    cases j with
    | zero =>
      show BucketsWF nb i (c2 :: rest)
      simp only [BucketsWF]
      exact ⟨by simpa using hh, hn, h3⟩
    | succ j =>
      show BucketsWF nb i (c :: rest.set j c2)
      simp only [BucketsWF]
      refine ⟨h1, h2, ih (i + 1) j c2 h3 ?_ hn⟩
      intro e he
      have := hh e he
      omega

/-- Replacing bucket j changes the total entry population by the difference
of the chain lengths. -/
theorem sum_len_set : ∀ (L : List (List Entry)) (j : Nat) (c2 : List Entry),
    j < L.length →
    ((L.set j c2).map List.length).sum + (L.getD j []).length =
      (L.map List.length).sum + c2.length := by
  intro L
  induction L with
  | nil => intro j c2 hj; simp at hj
  | cons c rest ih =>
    intro j c2 hj
    cases j with
    | zero =>
      show ((c2 :: rest).map List.length).sum + ((c :: rest).getD 0 []).length =
        ((c :: rest).map List.length).sum + c2.length
      simp only [List.map_cons, List.sum_cons, List.getD_cons_zero]
      omega
    | succ j =>
      have := ih j c2 (by simpa using hj)
      show ((c :: rest.set j c2).map List.length).sum +
          ((c :: rest).getD (j + 1) []).length =
        ((c :: rest).map List.length).sum + c2.length
      simp only [List.map_cons, List.sum_cons, List.getD_cons_succ]
      omega

/-- A failed chain walk of cmap_put means the key is on no entry of the
chain. -/
theorem chainPut_none (clean : Bool) (k v : Bytes) :
    ∀ chain : List Entry, chainPut clean k v chain = none →
      ∀ e ∈ chain, e.key ≠ k := by
  intro chain
  induction chain with
  | nil => intro _ e he; simp at he
  | cons e0 rest ih =>
    intro h e he
    unfold chainPut at h
    by_cases hk : e0.key = k
    · rw [if_pos hk] at h; exact absurd h (by simp)
    · rw [if_neg hk] at h
      have hrec : chainPut clean k v rest = none := by
        cases hx : chainPut clean k v rest with
        | none => rfl
        | some p =>
          obtain ⟨c1, cl1⟩ := p
          rw [hx] at h
          exact absurd h (by simp)
      rcases List.mem_cons.1 he with rfl | hmem
      · exact hk
      · exact ih hrec e hmem

/-- A successful chain walk of cmap_put replaces one value in place: the key
sequence of the chain, and hence its length, is unchanged. -/
theorem chainPut_some (clean : Bool) (k v : Bytes) :
    ∀ (chain c2 : List Entry) (cl : List Bytes),
      chainPut clean k v chain = some (c2, cl) →
      c2.map Entry.key = chain.map Entry.key ∧ c2.length = chain.length := by
  intro chain
  induction chain with
  | nil => intro c2 cl h; exact absurd h (by simp [chainPut])
  | cons e0 rest ih =>
    intro c2 cl h
    unfold chainPut at h
    by_cases hk : e0.key = k
    · rw [if_pos hk, Option.some.injEq, Prod.mk.injEq] at h
      obtain ⟨h1, _⟩ := h
      subst h1
      exact ⟨by simp, by simp⟩
    · rw [if_neg hk] at h
      cases hx : chainPut clean k v rest with
      | none => rw [hx] at h; exact absurd h (by simp)
      | some p =>
        obtain ⟨c1, cl1⟩ := p
        rw [hx, Option.some.injEq, Prod.mk.injEq] at h
        obtain ⟨h1, _⟩ := h
        subst h1
        obtain ⟨ha, hb⟩ := ih c1 cl1 hx
        constructor
        · show (e0 :: c1).map Entry.key = (e0 :: rest).map Entry.key
          simp [ha]
        · simp [hb]

/-- cmap_put preserves the table invariant. -/
theorem cmap_put_wf (cm : CMap) (k v : Bytes) (hwf : CMapWF cm) :
    CMapWF (cmap_put cm k v).1 := by
  obtain ⟨hn, hb, hw, hc⟩ := hwf
  have hbk : hash k cm.nbuckets < cm.buckets.length := by
    rw [hb]; exact Nat.mod_lt _ hn
  obtain ⟨hh, hnd⟩ := bucketsWF_getD cm.nbuckets cm.buckets 0
    (hash k cm.nbuckets) hw hbk
  cases hput : chainPut cm.clean k v (cm.buckets.getD (hash k cm.nbuckets) []) with
  | some p =>
    obtain ⟨c2, cl⟩ := p
    have heq : (cmap_put cm k v).1 =
        { cm with buckets := cm.buckets.set (hash k cm.nbuckets) c2 } := by
      simp only [cmap_put]
      rw [hput]
    rw [heq]
    obtain ⟨hkeys, hlen⟩ := chainPut_some cm.clean k v _ c2 cl hput
    refine ⟨hn, by simpa using hb, ?_, ?_⟩
    · apply bucketsWF_set cm.nbuckets cm.buckets 0 (hash k cm.nbuckets) c2 hw ?_ ?_
      · intro e he
        have hkmem : e.key ∈
            (cm.buckets.getD (hash k cm.nbuckets) []).map Entry.key := by
          rw [← hkeys]; exact List.mem_map_of_mem Entry.key he
        obtain ⟨e2, he2, hke⟩ := List.mem_map.1 hkmem
        rw [← hke]
        exact hh e2 he2
      · rw [hkeys]; exact hnd
    · show cm.count = ((cm.buckets.set (hash k cm.nbuckets) c2).map List.length).sum
      have hsum := sum_len_set cm.buckets (hash k cm.nbuckets) c2 hbk
      omega
  | none =>
    have heq : (cmap_put cm k v).1 =
        { cm with
            buckets := cm.buckets.set (hash k cm.nbuckets)
              (⟨k, v⟩ :: cm.buckets.getD (hash k cm.nbuckets) []),
            count := cm.count + 1 } := by
      simp only [cmap_put]
      rw [hput]
    rw [heq]
    have hnew : ∀ e ∈ (⟨k, v⟩ :: cm.buckets.getD (hash k cm.nbuckets) [] :
        List Entry), hash e.key cm.nbuckets = 0 + hash k cm.nbuckets := by
      intro e he
      rcases List.mem_cons.1 he with rfl | hmem
      · show hash k cm.nbuckets = 0 + hash k cm.nbuckets
        omega
      · exact hh e hmem
    refine ⟨hn, by simpa using hb, ?_, ?_⟩
    · apply bucketsWF_set cm.nbuckets cm.buckets 0 (hash k cm.nbuckets) _ hw hnew
      show ((⟨k, v⟩ :: cm.buckets.getD (hash k cm.nbuckets) []).map
        Entry.key).Nodup
      rw [List.map_cons]
      refine List.Nodup.cons ?_ hnd
      intro hkmem
      obtain ⟨e2, he2, hke⟩ := List.mem_map.1 hkmem
      exact chainPut_none cm.clean k v _ hput e2 he2 hke
    · show cm.count + 1 =
        ((cm.buckets.set (hash k cm.nbuckets)
          (⟨k, v⟩ :: cm.buckets.getD (hash k cm.nbuckets) [])).map List.length).sum
      have hsum := sum_len_set cm.buckets (hash k cm.nbuckets)
        (⟨k, v⟩ :: cm.buckets.getD (hash k cm.nbuckets) []) hbk
      rw [List.length_cons] at hsum
      omega

/-- A freshly created bucket array satisfies the invariant at any offset. -/
theorem bucketsWF_replicate (nb : Nat) :
    ∀ (m i : Nat), BucketsWF nb i (List.replicate m []) := by
  intro m
  induction m with
  | zero => intro i; trivial
  | succ m ih =>
    intro i
    show BucketsWF nb i ([] :: List.replicate m [])
    simp only [BucketsWF]
    exact ⟨by simp, by simp, ih (i + 1)⟩

/-- cmap_create yields a well-formed table. -/
theorem cmap_create_wf (valuesz capacity_hint : Nat) (fn : Bool) :
    CMapWF (cmap_create valuesz capacity_hint fn) := by
  refine ⟨?_, ?_, bucketsWF_replicate _ _ 0, ?_⟩
  · show 0 < (if capacity_hint = 0 then cmapDefaultCapacity else capacity_hint)
    by_cases h : capacity_hint = 0 <;>
      simp [h, cmapDefaultCapacity, Nat.pos_of_ne_zero]
  · show (List.replicate (if capacity_hint = 0 then cmapDefaultCapacity
      else capacity_hint) (α := List Entry) []).length = _
    simp [cmap_create]
  · show 0 = ((List.replicate (if capacity_hint = 0 then cmapDefaultCapacity
      else capacity_hint) (α := List Entry) []).map List.length).sum
    induction (if capacity_hint = 0 then cmapDefaultCapacity
      else capacity_hint) with
    | zero => rfl
    | succ m ih => simp only [List.replicate_succ, List.map_cons,
        List.sum_cons, List.length_nil, Nat.zero_add]; exact ih

/-- Every table reachable by cmap_create and cmap_put calls is well
formed. -/
theorem reachable_wf (cm : CMap) (h : Reachable cm) : CMapWF cm := by
  induction h with
  | create v hint fn hv => exact cmap_create_wf v hint fn
  | put cm k v hr ih => exact cmap_put_wf cm k v ih

/-- Keys stored at or after bucket offset i hash at or above i. -/
theorem keysOf_mem_hash_ge (nb : Nat) :
    ∀ (S : List (List Entry)) (i : Nat) (k : Bytes),
      BucketsWF nb i S → k ∈ keysOf S → i ≤ hash k nb := by
  intro S
  induction S with
  | nil => intro i k _ hk; simp [keysOf] at hk
  | cons c rest ih =>
    intro i k hwf hk
    simp only [BucketsWF] at hwf
    obtain ⟨h1, h2, h3⟩ := hwf
    rw [show keysOf (c :: rest) = c.map Entry.key ++ keysOf rest from by
      simp [keysOf]] at hk
    rcases List.mem_append.1 hk with hk | hk
    · obtain ⟨e, he, hke⟩ := List.mem_map.1 hk
      rw [← hke]
      exact Nat.le_of_eq (h1 e he).symm
    · have := ih (i + 1) k h3 hk
      omega

/-- The key population of a well-formed bucket array has no duplicate. -/
theorem keysOf_nodup (nb : Nat) : ∀ (S : List (List Entry)) (i : Nat),
    BucketsWF nb i S → (keysOf S).Nodup := by
  intro S
  induction S with
  | nil => intro i _; simp [keysOf]
  | cons c rest ih =>
    intro i hwf
    simp only [BucketsWF] at hwf
    obtain ⟨h1, h2, h3⟩ := hwf
    rw [show keysOf (c :: rest) = c.map Entry.key ++ keysOf rest from by
      simp [keysOf]]
    rw [List.nodup_append]
    refine ⟨h2, ih (i + 1) h3, ?_⟩
    intro k hk1 hk2
    obtain ⟨e, he, hke⟩ := List.mem_map.1 hk1
    have hge := keysOf_mem_hash_ge nb rest (i + 1) k h3 hk2
    have heq : hash k nb = i := by rw [← hke]; exact h1 e he
    omega

/-- There are exactly as many stored keys as entries. -/
theorem keysOf_length : ∀ S : List (List Entry),
    (keysOf S).length = (S.map List.length).sum := by
  intro S
  induction S with
  | nil => rfl
  | cons c rest ih =>
    rw [show keysOf (c :: rest) = c.map Entry.key ++ keysOf rest from by
      simp [keysOf]]
    simp [ih]

/-! ### Claim C9: the reachable-table invariant -/

/-- C9: every table reachable from cmap_create by cmap_put calls keeps the
invariant that every entry of bucket j hashes to j, that no key occurs in
more than one entry of the whole table, and that count equals the total
number of entries across all chains. -/
theorem c9_reachable_invariant (cm : CMap) (h : Reachable cm) :
    (∀ j c, cm.buckets[j]? = some c → ∀ e ∈ c, hash e.key cm.nbuckets = j) ∧
    (keyList cm).Nodup ∧
    cm.count = (cm.buckets.map List.length).sum := by
  obtain ⟨hn, hb, hw, hc⟩ := reachable_wf cm h
  refine ⟨?_, keysOf_nodup cm.nbuckets cm.buckets 0 hw, hc⟩
  intro j c hjc e he
  have hj : j < cm.buckets.length := by
    by_contra hx
    rw [List.getElem?_eq_none (by omega)] at hjc
    exact absurd hjc (by simp)
  have hgd : cm.buckets.getD j [] = c := by
    rw [List.getD_eq_getElem?_getD, hjc]
    rfl
  have := (bucketsWF_getD cm.nbuckets cm.buckets 0 j hw hj).1 e
    (by rw [hgd]; exact he)
  omega

/-- C9 witness: the invariant evaluated on the three-key demonstration
table. -/
theorem c9_reachable_invariant_witness :
    (∀ j c, demoMap.buckets[j]? = some c →
      ∀ e ∈ c, hash e.key demoMap.nbuckets = j) ∧
    (keyList demoMap).Nodup ∧
    demoMap.count = (demoMap.buckets.map List.length).sum :=
  c9_reachable_invariant demoMap
    (Reachable.put _ [99] [3] (Reachable.put _ [98] [2]
      (Reachable.put _ [97] [1] (Reachable.create 1 3 true (by decide)))))

end CvectorCmap

namespace CvectorCmap

/-! ### Helper lemmas for table traversal -/

/-- Reading the bucket array at the split point of an append. -/
theorem getD_append_len : ∀ (P : List (List Entry)) (c : List Entry)
    (R : List (List Entry)), (P ++ c :: R).getD P.length [] = c := by
  intro P
  induction P with
  | nil => intro c R; rfl
  | cons p P ih => intro c R; exact ih c R

/-- Dropping past the split point of an append. -/
theorem drop_append_len_succ : ∀ (P : List (List Entry)) (c : List Entry)
    (R : List (List Entry)), (P ++ c :: R).drop (P.length + 1) = R := by
  intro P
  induction P with
  | nil => intro c R; rfl
  | cons p P ih => intro c R; exact ih c R

/-- The blob recovery of cmap_next resolved along a duplicate-free chain:
the position of the entry carrying the key determines the chain suffix
behind it. -/
theorem findInChain_eq (k : Bytes) :
    ∀ (pfx s : List Entry) (e : Entry), e.key = k →
      ((pfx ++ e :: s).map Entry.key).Nodup →
      findInChain (pfx ++ e :: s) k = some s := by
  intro pfx
  induction pfx with
  | nil =>
    intro s e hek _
    show findInChain (e :: s) k = some s
    unfold findInChain
    rw [if_pos hek]
  | cons f pfx ih =>
    intro s e hek hnd
    rw [List.cons_append, List.map_cons] at hnd
    obtain ⟨hf, hrest⟩ := List.nodup_cons.1 hnd
    have hfk : f.key ≠ k := by
      intro hcon
      apply hf
      have hmem : e.key ∈ (pfx ++ e :: s).map Entry.key :=
        List.mem_map_of_mem Entry.key (by simp)
      rw [hek] at hmem
      rw [hcon]
      exact hmem
    show findInChain (f :: (pfx ++ e :: s)) k = some s
    unfold findInChain
    rw [if_neg hfk]
    exact ih s e hek hrest

/-- The association of traversal with the bucket array: started on the first
key of the bucket suffix SUF (placed behind the buckets PRE in the table),
the cmap_first / cmap_next protocol reads out exactly the keys stored in
SUF, chain by chain. -/
theorem traverse_suffix (cm : CMap) :
    ∀ (SUF PRE : List (List Entry)), cm.buckets = PRE ++ SUF →
      BucketsWF cm.nbuckets PRE.length SUF →
      ∀ fuel, (keysOf SUF).length ≤ fuel →
        traverseFrom cm fuel (firstKeyFrom SUF) = keysOf SUF := by
  intro SUF
  induction SUF with
  | nil =>
    intro PRE hsplit hwf fuel hfuel
    show traverseFrom cm fuel none = []
    cases fuel <;> rfl
  | cons c SUF ih =>
    intro PRE hsplit hwf fuel hfuel
    simp only [BucketsWF] at hwf
    obtain ⟨hhash, hnd, hwfrest⟩ := hwf
    cases c with
    | nil =>
      have h2 : keysOf ([] :: SUF) = keysOf SUF := by simp [keysOf]
      show traverseFrom cm fuel (firstKeyFrom SUF) = keysOf ([] :: SUF)
      rw [h2]
      rw [h2] at hfuel
      apply ih (PRE ++ [[]]) ?_ ?_ fuel hfuel
      · rw [hsplit, List.append_assoc]
        rfl
      · have hl : (PRE ++ [[]]).length = PRE.length + 1 := by simp
        rw [hl]
        exact hwfrest
    | cons e c0 =>
      have hchain : ∀ (s pfx : List Entry) (e1 : Entry),
          e :: c0 = pfx ++ e1 :: s →
          ∀ fuel, (e1 :: s).length + (keysOf SUF).length ≤ fuel →
            traverseFrom cm fuel (some e1.key) =
              (e1 :: s).map Entry.key ++ keysOf SUF := by
        intro s
        induction s with
        | nil =>
          intro pfx e1 hc fuel hfuel2
          simp only [List.length_cons] at hfuel2
          obtain ⟨f, rfl⟩ : ∃ f, fuel = f + 1 := ⟨fuel - 1, by omega⟩
          show e1.key :: traverseFrom cm f (cmap_next cm e1.key) =
            e1.key :: keysOf SUF
          congr 1
          have hb : hash e1.key cm.nbuckets = PRE.length :=
            hhash e1 (by rw [hc]; simp)
          have hgd : cm.buckets.getD (hash e1.key cm.nbuckets) [] = e :: c0 := by
            rw [hb, hsplit]
            exact getD_append_len PRE (e :: c0) SUF
          have hfic : findInChain (e :: c0) e1.key = some [] := by
            rw [hc]
            exact findInChain_eq e1.key pfx [] e1 rfl (by rw [← hc]; exact hnd)
          have hnext : cmap_next cm e1.key = firstKeyFrom SUF := by
            unfold cmap_next
            rw [hgd, hfic, hb, hsplit, drop_append_len_succ PRE (e :: c0) SUF]
          rw [hnext]
          apply ih (PRE ++ [e :: c0]) ?_ ?_ f (by omega)
          · rw [hsplit, List.append_assoc]
            rfl
          · have hl : (PRE ++ [e :: c0]).length = PRE.length + 1 := by simp
            rw [hl]
            exact hwfrest
        | cons e2 s ihs =>
          intro pfx e1 hc fuel hfuel2
          simp only [List.length_cons] at hfuel2
          obtain ⟨f, rfl⟩ : ∃ f, fuel = f + 1 := ⟨fuel - 1, by omega⟩
          show e1.key :: traverseFrom cm f (cmap_next cm e1.key) =
            e1.key :: ((e2 :: s).map Entry.key ++ keysOf SUF)
          congr 1
          have hb : hash e1.key cm.nbuckets = PRE.length :=
            hhash e1 (by rw [hc]; simp)
          have hgd : cm.buckets.getD (hash e1.key cm.nbuckets) [] = e :: c0 := by
            rw [hb, hsplit]
            exact getD_append_len PRE (e :: c0) SUF
          have hfic : findInChain (e :: c0) e1.key = some (e2 :: s) := by
            rw [hc]
            exact findInChain_eq e1.key pfx (e2 :: s) e1 rfl
              (by rw [← hc]; exact hnd)
          have hnext : cmap_next cm e1.key = some e2.key := by
            unfold cmap_next
            rw [hgd, hfic]
          rw [hnext]
          apply ihs (pfx ++ [e1]) e2 ?_ f (by
            simp only [List.length_cons]
            omega)
          rw [hc, List.append_assoc]
          rfl
      show traverseFrom cm fuel (some e.key) = keysOf ((e :: c0) :: SUF)
      have hkeq : keysOf ((e :: c0) :: SUF) =
          (e :: c0).map Entry.key ++ keysOf SUF := by simp [keysOf]
      rw [hkeq]
      apply hchain c0 [] e rfl fuel ?_
      rw [hkeq] at hfuel
      simp only [List.length_append, List.length_map, List.length_cons]
        at hfuel ⊢
      omega

/-- A fully fueled traversal of a well-formed table reads out exactly the
stored keys, bucket by bucket, chain by chain. -/
theorem cmap_traverse_eq (cm : CMap) (hwf : CMapWF cm) (fuel : Nat)
    (hfuel : (keyList cm).length ≤ fuel) :
    cmap_traverse cm fuel = keyList cm :=
  traverse_suffix cm cm.buckets [] rfl hwf.bwf fuel hfuel

/-! ### Claim C3: the full traversal visits every live key exactly once -/

/-- C3: for every table built by cmap_create and any sequence of cmap_put
calls, the traversal that starts at cmap_first and repeatedly applies
cmap_next until NULL (with at least count steps of fuel available, and no
put intervening, since the traversed table is fixed) reads out exactly the
list of live keys, which contains every live key exactly once: no key is
skipped and none is repeated, for every insertion order. -/
theorem c3_traversal_visits_each_key_once (cm : CMap) (h : Reachable cm)
    (fuel : Nat) (hfuel : cm.count ≤ fuel) :
    cmap_traverse cm fuel = keyList cm ∧ (keyList cm).Nodup := by
  obtain ⟨hn, hb, hw, hc⟩ := reachable_wf cm h
  have hlen : (keyList cm).length = cm.count := by
    rw [show keyList cm = keysOf cm.buckets from rfl, keysOf_length, ← hc]
  exact ⟨cmap_traverse_eq cm ⟨hn, hb, hw, hc⟩ fuel (by omega),
    keysOf_nodup cm.nbuckets cm.buckets 0 hw⟩

/-- C3 witness: the traversal of the three-key demonstration table with
exactly count steps of fuel. -/
theorem c3_traversal_visits_each_key_once_witness :
    cmap_traverse demoMap 3 = keyList demoMap ∧ (keyList demoMap).Nodup :=
  c3_traversal_visits_each_key_once demoMap
    (Reachable.put _ [99] [3] (Reachable.put _ [98] [2]
      (Reachable.put _ [97] [1] (Reachable.create 1 3 true (by decide)))))
    3 (by decide)

end CvectorCmap

namespace CvectorCmap

/-! ### Claim C8: disposal cleans every live element exactly once -/

/-- Draining a chain hands over exactly its values, head first. -/
theorem drainChain_eq : ∀ c : List Entry, drainChain c = c.map Entry.val := by
  intro c
  induction c with
  | nil => rfl
  | cons e rest ih => simp [drainChain, ih]

/-- The index-order cleanup walk of cvec_dispose reads out the live
elements. -/
theorem range_map_get_nth (cv : CVector) (hwf : CVectorWF cv) :
    (List.range cv.size).map (fun i => get_nth cv i) = liveView cv := by
  obtain ⟨hlen, hsz, hpos⟩ := hwf
  apply List.ext_getElem?
  intro i
  rw [List.getElem?_map]
  unfold liveView
  rw [List.getElem?_take]
  by_cases hi : i < cv.size
  · rw [if_pos hi, List.getElem?_range hi]
    rw [List.getElem?_eq_getElem (by omega : i < cv.data.length)]
    show some (cv.data.getD i []) = some cv.data[i]
    rw [List.getD_eq_getElem?_getD, List.getElem?_eq_getElem
      (by omega : i < cv.data.length)]
    rfl
  · rw [if_neg hi, List.getElem?_eq_none (by simp; omega)]
    rfl

/-- The value population of a bucket array is as long as its entry count. -/
theorem vals_flatten_length : ∀ S : List (List Entry),
    ((S.map (fun c => c.map Entry.val)).flatten).length =
      (S.map List.length).sum := by
  intro S
  induction S with
  | nil => rfl
  | cons c rest ih => simp [ih]

/-- C8: disposing a well-formed vector with a cleanup callback configured
invokes the callback once per live element, in index order, and disposing a
reachable table with a callback configured invokes it once per entry — as
many calls as count, the drained chains covering a duplicate-free key
population, so exactly once per live key; without a callback no cleanup call
is made by either container. -/
theorem c8_dispose_cleanup_once (cv : CVector) (hcv : CVectorWF cv)
    (cm : CMap) (hcm : Reachable cm) :
    (cv.clean = true → cvec_dispose cv = liveView cv) ∧
    (cv.clean = false → cvec_dispose cv = []) ∧
    (cm.clean = true →
      cmap_dispose cm = (cm.buckets.map (fun c => c.map Entry.val)).flatten ∧
      (cmap_dispose cm).length = cm.count ∧ (keyList cm).Nodup) ∧
    (cm.clean = false → cmap_dispose cm = []) := by
  obtain ⟨hn, hb, hw, hc⟩ := reachable_wf cm hcm
  have hdrain : cm.buckets.map drainChain =
      cm.buckets.map (fun c => c.map Entry.val) :=
    List.map_congr_left (fun c _ => drainChain_eq c)
  refine ⟨?_, ?_, ?_, ?_⟩
  · intro hclean
    unfold cvec_dispose
    rw [hclean, if_pos rfl]
    exact range_map_get_nth cv hcv
  · intro hclean
    unfold cvec_dispose
    rw [hclean]
    rfl
  · intro hclean
    have hdisp : cmap_dispose cm =
        (cm.buckets.map (fun c => c.map Entry.val)).flatten := by
      unfold cmap_dispose
      rw [hclean, if_pos rfl, hdrain]
    refine ⟨hdisp, ?_, keysOf_nodup cm.nbuckets cm.buckets 0 hw⟩
    rw [hdisp, vals_flatten_length, ← hc]
  · intro hclean
    unfold cmap_dispose
    rw [hclean]
    rfl

/-- C8 witness: the theorem evaluated on the two-element vector and the
three-key table, both created with a cleanup callback. -/
theorem c8_dispose_cleanup_once_witness :
    (c8vec.clean = true → cvec_dispose c8vec = liveView c8vec) ∧
    (c8vec.clean = false → cvec_dispose c8vec = []) ∧
    (demoMap.clean = true →
      cmap_dispose demoMap =
        (demoMap.buckets.map (fun c => c.map Entry.val)).flatten ∧
      (cmap_dispose demoMap).length = demoMap.count ∧
      (keyList demoMap).Nodup) ∧
    (demoMap.clean = false → cmap_dispose demoMap = []) :=
  c8_dispose_cleanup_once c8vec (by unfold CVectorWF; decide) demoMap
    (Reachable.put _ [99] [3] (Reachable.put _ [98] [2]
      (Reachable.put _ [97] [1] (Reachable.create 1 3 true (by decide)))))

end CvectorCmap
